import Mathlib

/-! Verification of the Rag-github retrieval subsystem.

Shallow embedding, in Lean 4, of the retrieval subsystem of the
`Rag-github` repository (`backend/services/retrieval.py`,
`backend/services/graph.py`, `backend/services/agents.py`), together with
proofs settling the specification's testable properties.

Modelling conventions:
* Python lists become Lean `List`s; Python `str` becomes `String` (helper
  functions on `List Char` mirror the string operations used by the source).
* NumPy float vectors and CrossEncoder scores become `List ℤ` / `ℤ`
  (exact integers standing for the floating-point values; every claim
  proved here depends only on ordering, equality, membership and
  bookkeeping of the scores, never on their arithmetic precision).
* External services (SentenceTransformer embedding model, CrossEncoder
  re-ranker, tiktoken tokenizer, chromadb vector store, the filesystem)
  are parameters of the embedded functions, exactly where the source
  branches on their availability.
* Potentially non-terminating Python loops are embedded with explicit
  fuel returning `Option`; `none` means the loop did not finish within
  the given fuel, and a `∀ fuel, … = none` theorem witnesses divergence.
-/

/-- Python whitespace characters, as recognised by `str.strip()`
(ASCII subset, which is all that the repository's inputs use). -/
def isPyWS (c : Char) : Bool :=
  c = ' ' || c = '\t' || c = '\n' || c = '\r' || c = '\x0b' || c = '\x0c'

/-- Python `str.strip()` on the underlying character list: drop whitespace from
both ends. -/
def pyStripL (l : List Char) : List Char :=
  ((l.dropWhile isPyWS).reverse.dropWhile isPyWS).reverse

/-- Python `str.strip()`. -/
def pyStrip (s : String) : String :=
  ⟨pyStripL s.data⟩

/-- A chunk of a source file: `retrieval.py`, `class Chunk` (dataclass with
fields `path`, `start_line`, `end_line`, `text`). -/
structure Chunk where
  path : String
  start_line : Nat
  end_line : Nat
  text : String
deriving DecidableEq, Repr, Inhabited

/-- Source `retrieval.py`, `class RetrievalIndex`: chunk metadata plus one
embedding vector per chunk, and the optional chromadb collection handle
fields. -/
structure RetrievalIndex where
  chunks : List Chunk
  embeddings : List (List ℤ)
  collection_name : Option String := none
  collection_path : Option String := none
deriving DecidableEq, Repr, Inhabited

/-- Source `retrieval.py`, `_chunk_lines`, body of the `while start < total` loop,
with explicit fuel (the source loop has no other bound; for a
mis-configured `CHUNK_OVERLAP ≥ CHUNK_LINE_SIZE` it does not terminate,
which shows up here as `none` for every fuel).  `maxL` is
`CHUNK_LINE_SIZE`, `ov` is `CHUNK_OVERLAP`; `lines` is the file split into
lines with `splitlines(keepends=True)`.  Yields `(start+1, end, text)`
triples; `start = max(end - CHUNK_OVERLAP, 0)` is natural subtraction. -/
def chunkLinesAux (maxL ov : Nat) (lines : List String) : Nat → Nat → Option (List (Nat × Nat × String))
  | 0, _ => none
  | fuel + 1, start =>
    if start < lines.length then
      let e := min (start + maxL) lines.length
      let txt := pyStrip (String.join ((lines.drop start).take (e - start)))
      let here := if txt = "" then [] else [(start + 1, e, txt)]
      if e = lines.length then
        some here
      else
        (chunkLinesAux maxL ov lines fuel (e - ov)).map (here ++ ·)
    else
      some []

/-- Source `retrieval.py`, `_chunk_lines(lines)`: the fuel `lines.length + 1`
suffices whenever `ov < maxL` (proved below); `none` signals the
divergence of the mis-configured source loop. -/
def chunkLines (maxL ov : Nat) (lines : List String) : Option (List (Nat × Nat × String)) :=
  chunkLinesAux maxL ov lines (lines.length + 1) 0

example : chunkLines 200 40 ["a\n", "b\n"] = some [(1, 2, "a\nb")] := by decide
example : chunkLines 200 40 ["\n"] = some [] := by decide
example : chunkLines 2 1 ["a\n", "b\n", "c\n"] = some [(1, 2, "a\nb"), (2, 3, "b\nc")] := by decide

/-! Part: chunker lemmas -/

theorem pyStripL_eq_nil (l : List Char) (h : pyStripL l = []) : ∀ c ∈ l, isPyWS c := by
  unfold pyStripL at h
  rw [List.reverse_eq_nil_iff, List.dropWhile_eq_nil_iff] at h
  intro c hc
  rw [← List.takeWhile_append_dropWhile (p := isPyWS) (l := l)] at hc
  rcases List.mem_append.mp hc with h1 | h1
  · exact List.mem_takeWhile_imp h1
  · exact h c (List.mem_reverse.mpr h1)

theorem pyStrip_ne_empty (s : String) (c : Char) (hc : c ∈ s.data) (hw : ¬ isPyWS c) :
    pyStrip s ≠ "" := by
  intro h
  have : pyStripL s.data = [] := congrArg String.data h
  exact hw (pyStripL_eq_nil s.data this c hc)

/-- If some line of the window has a non-whitespace character, the
window's joined, stripped text is non-empty, so `_chunk_lines` emits the
window's chunk. -/
theorem window_txt_ne (lines : List String) (start e i : Nat)
    (hsi : start ≤ i) (hie : i < e) (hel : e ≤ lines.length)
    (hch : ∃ ch ∈ (lines.getD i "").data, ¬ isPyWS ch) :
    pyStrip (String.join ((lines.drop start).take (e - start))) ≠ "" := by
  obtain ⟨ch, hmem, hw⟩ := hch
  have hil : i < lines.length := lt_of_lt_of_le hie hel
  apply pyStrip_ne_empty _ ch _ hw
  rw [String.data_join]
  rw [List.mem_flatten]
  refine ⟨(lines.getD i "").data, List.mem_map_of_mem _ ?_, hmem⟩
  have hb1 : i - start < (lines.drop start).length := by simp; omega
  have hb : i - start < ((lines.drop start).take (e - start)).length := by simp; omega
  have heq : ((lines.drop start).take (e - start)).get ⟨i - start, hb⟩ = lines.getD i "" := by
    rw [List.get_eq_getElem, List.getElem_take, List.getElem_drop,
      List.getD_eq_getElem lines "" hil]
    congr 1
    show start + (i - start) = i
    omega
  rw [← heq]
  exact List.get_mem _ _ hb

/-- Main inductive invariant for `_chunk_lines`: with the stated fuel the
loop finishes, every emitted chunk has `start+1 ≤ start_line ≤ end_line ≤
total`, and every line at or past the current window that contains a
non-whitespace character is covered by some emitted chunk. -/
theorem chunkLinesAux_spec (maxL ov : Nat) (hov : ov < maxL) (lines : List String) :
    ∀ fuel start, lines.length - start < fuel →
    ∃ res, chunkLinesAux maxL ov lines fuel start = some res ∧
      (∀ c ∈ res, start + 1 ≤ c.1 ∧ c.1 ≤ c.2.1 ∧ c.2.1 ≤ lines.length) ∧
      (∀ i, start ≤ i → i < lines.length →
        (∃ ch ∈ (lines.getD i "").data, ¬ isPyWS ch) →
        ∃ c ∈ res, c.1 ≤ i + 1 ∧ i + 1 ≤ c.2.1) := by
  intro fuel
  induction fuel with
  | zero => intro start h; omega
  | succ fuel ih =>
    intro start hfuel
    by_cases hs : start < lines.length
    · have hmax : 0 < maxL := by omega
      set total := lines.length with htot
      set e := min (start + maxL) total with he
      have hse : start < e := by omega
      have het : e ≤ total := by omega
      set txt := pyStrip (String.join ((lines.drop start).take (e - start))) with htxt
      set here := (if txt = "" then ([] : List (Nat × Nat × String)) else [(start + 1, e, txt)]) with hhere
      have hstep : chunkLinesAux maxL ov lines (fuel + 1) start =
          if e = total then some here
          else (chunkLinesAux maxL ov lines fuel (e - ov)).map (here ++ ·) := by
        simp only [chunkLinesAux, if_pos hs]
      have hhereprop : ∀ c ∈ here, start + 1 ≤ c.1 ∧ c.1 ≤ c.2.1 ∧ c.2.1 ≤ total := by
        intro c hc
        rw [hhere] at hc
        by_cases ht : txt = ""
        · simp [ht] at hc
        · simp [ht] at hc
          subst hc
          refine ⟨le_refl _, ?_, het⟩
          show start + 1 ≤ e
          omega
      have hwindowcov : ∀ i, start ≤ i → i < e →
          (∃ ch ∈ (lines.getD i "").data, ¬ isPyWS ch) →
          ∃ c ∈ here, c.1 ≤ i + 1 ∧ i + 1 ≤ c.2.1 := by
        intro i hsi hie hch
        have hne := window_txt_ne lines start e i hsi hie het hch
        rw [hhere, if_neg hne]
        refine ⟨(start + 1, e, txt), List.mem_singleton_self _, ?_, ?_⟩
        · show start + 1 ≤ i + 1
          omega
        · show i + 1 ≤ e
          omega
      by_cases het2 : e = total
      · refine ⟨here, ?_, hhereprop, ?_⟩
        · rw [hstep, if_pos het2]
        · intro i hsi hil hch
          exact hwindowcov i hsi (by omega) hch
      · obtain ⟨res', heq', hprops', hcov'⟩ := ih (e - ov) (by omega)
        refine ⟨here ++ res', ?_, ?_, ?_⟩
        · rw [hstep, if_neg het2, heq']
          rfl
        · intro c hc
          rcases List.mem_append.mp hc with h1 | h1
          · exact hhereprop c h1
          · obtain ⟨ha, hb, hc2⟩ := hprops' c h1
            exact ⟨by omega, hb, hc2⟩
        · intro i hsi hil hch
          by_cases hie : i < e
          · obtain ⟨c, hc, hcc⟩ := hwindowcov i hsi hie hch
            exact ⟨c, List.mem_append_left _ hc, hcc⟩
          · obtain ⟨c, hc, hcc⟩ := hcov' i (by omega) hil hch
            exact ⟨c, List.mem_append_right _ hc, hcc⟩
    · refine ⟨[], ?_, by simp, ?_⟩
      · simp [chunkLinesAux, hs]
      · intro i hsi hil _
        omega

/-- C2 (amended): for every file and every valid configuration
`overlapLines < maxLines`, chunking terminates, every chunk satisfies
`start_line ≤ end_line`, and every line containing a non-whitespace
character is covered by some chunk's inclusive line range.  (Lines whose
every covering window is entirely whitespace produce no chunk, so they
may be uncovered — see the counterexample.) -/
theorem chunkLines_coverage (maxL ov : Nat) (lines : List String) (hov : ov < maxL) :
    ∃ res, chunkLines maxL ov lines = some res ∧
      (∀ c ∈ res, c.1 ≤ c.2.1) ∧
      (∀ i, i < lines.length →
        (∃ ch ∈ (lines.getD i "").data, ¬ isPyWS ch) →
        ∃ c ∈ res, c.1 ≤ i + 1 ∧ i + 1 ≤ c.2.1) := by
  obtain ⟨res, heq, hprops, hcov⟩ :=
    chunkLinesAux_spec maxL ov hov lines (lines.length + 1) 0 (by omega)
  exact ⟨res, heq, fun c hc => (hprops c hc).2.1,
    fun i hi hch => hcov i (Nat.zero_le _) hi hch⟩

/-- Witness for `chunkLines_coverage` at the concrete configuration
`maxLines = 2`, `overlapLines = 1` and the one-line file `"x\n"`. -/
theorem chunkLines_coverage_witness :
    1 < 2 ∧ (∃ res, chunkLines 2 1 ["x\n"] = some res ∧
      (∀ c ∈ res, c.1 ≤ c.2.1) ∧
      (∀ i, i < (["x\n"] : List String).length →
        (∃ ch ∈ ((["x\n"] : List String).getD i "").data, ¬ isPyWS ch) →
        ∃ c ∈ res, c.1 ≤ i + 1 ∧ i + 1 ≤ c.2.1)) :=
  ⟨by decide, chunkLines_coverage 2 1 ["x\n"] (by decide)⟩

/-- C2 counterexample: with the repository's default, valid configuration
(`maxLines = 200 > overlapLines = 40`) the one-line file consisting of a
single blank line produces no chunks at all (`_chunk_lines` discards a
window whose stripped text is empty), so line 1 is covered by no chunk,
refuting "the union of the chunks' line ranges covers every line". -/
theorem chunkLines_cov_cex :
    40 < 200 ∧ 0 < (["\n"] : List String).length ∧
    chunkLines 200 40 ["\n"] = some [] := by decide

/-- C5: the source performs no validation of the chunk configuration.
With `RAG_CHUNK_LINE_SIZE = 2`, `RAG_CHUNK_OVERLAP = 2` (so
`overlapLines ≥ maxLines`, which the spec says must be rejected with a
configuration error) and a three-line file, the `_chunk_lines` loop never
terminates: `start` stays at `0` forever, so no fuel suffices. -/
theorem chunkLines_overlap_diverges (fuel : Nat) :
    chunkLinesAux 2 2 ["a\n", "b\n", "c\n"] fuel 0 = none := by
  induction fuel with
  | zero => rfl
  | succ n ih => simp [chunkLinesAux, ih]

/-! Part: Retrieval engine (`retrieval.py`, `retrieve` and helpers)

External services are parameters:
* `tc` models `_count_tokens` (tiktoken when importable, else the
  `len(text) // 4` fallback, `countTokensFallback` below);
* `ranker` models the optional CrossEncoder (`None` when loading fails,
  in which case the source falls back to the broad vector order);
* `related` models `services.graph.get_related_files` partially applied
  to `repo_path` (`none` when `repo_path` is not passed);
* `qe` is the (unit-normalised) query embedding produced by the
  SentenceTransformer model.
The in-memory scoring branch is modelled (`collection is None`); NumPy's
`argsort` is modelled as a stable ascending sort (NumPy's introsort is
insertion sort — stable — on the small candidate arrays involved), and
`[::-1]` as `List.reverse`. -/

/-- Fallback estimate `len(text) // 4` of `_count_tokens`. -/
def countTokensFallback (s : String) : Nat := s.length / 4

/-- Dot product (`np.dot`) of two vectors. -/
def dotScore (q v : List ℤ) : ℤ := (List.zipWith (· * ·) q v).sum

/-- Insert `x` before the first element `y` with `le x y`; building block
of a stable sort (CPython's `sorted` is stable; NumPy's argsort on small
arrays is insertion sort, also stable). -/
def sInsert (le : α → α → Bool) (x : α) : List α → List α
  | [] => [x]
  | y :: ys => if le x y then x :: y :: ys else y :: sInsert le x ys

/-- Stable insertion sort: for tied elements (`le x y` and `le y x`) the
original order is kept. -/
def stableSort (le : α → α → Bool) (l : List α) : List α :=
  l.foldr (sInsert le) []

/-- Model of `np.argsort(scores)[::-1][:broad_k]` over the in-memory similarity
scores (`retrieve`, broad-recall stage): indices of all chunks, sorted
ascending by score (stable), reversed, truncated to `broad_k`. -/
def broadIndices (emb : List (List ℤ)) (qe : List ℤ) (broadK : Nat) : List Nat :=
  let scores := emb.map (dotScore qe)
  ((stableSort (fun i j => decide (scores.getD i 0 ≤ scores.getD j 0))
      (List.range scores.length)).reverse).take broadK

/-- Model of `sorted(zip(broad_chunks, scores), key=lambda x: x[1], reverse=True)`
when the CrossEncoder is available, else the broad order (`retrieve`,
re-ranking stage).  `reverse=True` in CPython keeps tied elements in
their original order. -/
def rankedChunks (ranker : Option (String → String → ℤ)) (query : String)
    (broad : List Chunk) : List Chunk :=
  match ranker with
  | some f => stableSort (fun a b => decide (f query b.text ≤ f query a.text)) broad
  | none => broad

/-- GraphRAG expansion stage of `retrieve`: chunks of the index whose path
is related (per the dependency graph) to one of the top-3 ranked chunks'
paths and whose path is not among the ranked chunks' paths.  (The source
deduplicates `top_paths` through `set()`; only membership in the union of
the neighbours matters, so the flattened list is an equivalent model.) -/
def graphChunks (related : Option (String → List String)) (index : RetrievalIndex)
    (ranked : List Chunk) : List Chunk :=
  match related with
  | some rel =>
    let topPaths := (ranked.take 3).map (fun c => c.path)
    let relatedPaths := topPaths.flatMap rel
    let rankPaths := ranked.map (fun c => c.path)
    index.chunks.filter (fun c => decide (c.path ∈ relatedPaths ∧ c.path ∉ rankPaths))
  | none => []

/-- Deduplication key of `retrieve`, `f"{c.path}:{c.start_line}"`. -/
def uidOf (c : Chunk) : String := c.path ++ ":" ++ toString c.start_line

/-- Deduplication stage of `retrieve`: keep the first chunk for each uid. -/
def dedupGo (seen : List String) : List Chunk → List Chunk
  | [] => []
  | c :: rest =>
    if uidOf c ∈ seen then dedupGo seen rest
    else c :: dedupGo (uidOf c :: seen) rest

/-- Per-chunk cost `_count_tokens(chunk.text) + 20`, including the fixed
wrapping overhead ("Buffer for XML tags"). -/
def chunkCost (tc : String → Nat) (c : Chunk) : Nat := tc c.text + 20

/-- Token-budget packing loop of `retrieve`: accumulate whole chunks while
the running total stays within `budget`, stop at the first that would
exceed it. -/
def packGo (tc : String → Nat) (budget : Nat) : Nat → List Chunk → List Chunk
  | _, [] => []
  | cur, c :: rest =>
    if cur + chunkCost tc c ≤ budget then c :: packGo tc budget (cur + chunkCost tc c) rest
    else []

/-- Size (`np.ndarray.size`) of the embedding matrix. -/
def embSize (emb : List (List ℤ)) : Nat := (emb.map List.length).sum

/-- The deduplicated, prioritised candidate sequence built by `retrieve`
before token packing: broad recall, re-rank, graph expansion, dedup; `[]`
straight away when the index is empty (the source's early return). -/
def candidateChunks (ranker : Option (String → String → ℤ))
    (related : Option (String → List String)) (query : String) (qe : List ℤ)
    (index : RetrievalIndex) (topK : Nat) : List Chunk :=
  if index.chunks = [] ∨ embSize index.embeddings = 0 then []
  else
    let topIdx := broadIndices index.embeddings qe (topK * 5)
    let broad := topIdx.map (fun i => index.chunks.getD i default)
    let ranked := rankedChunks ranker query broad
    dedupGo [] (ranked ++ graphChunks related index ranked)

/-- Source `retrieval.py`, `retrieve(query, index, top_k, max_tokens, repo_path)`. -/
def retrieve (tc : String → Nat) (ranker : Option (String → String → ℤ))
    (related : Option (String → List String)) (query : String) (qe : List ℤ)
    (index : RetrievalIndex) (topK maxTokens : Nat) : List Chunk :=
  packGo tc maxTokens 0 (candidateChunks ranker related query qe index topK)

example :
    retrieve countTokensFallback none none "q" [1]
      ⟨[⟨"a.py", 1, 2, "hello"⟩, ⟨"b.py", 1, 2, "worldworld"⟩], [[1], [2]], none, none⟩
      6 100000 =
    [⟨"b.py", 1, 2, "worldworld"⟩, ⟨"a.py", 1, 2, "hello"⟩] := by decide

example :
    retrieve countTokensFallback none none "q" [1]
      ⟨[⟨"a.py", 1, 2, "hello"⟩, ⟨"b.py", 1, 2, "worldworld"⟩], [[1], [2]], none, none⟩
      6 25 =
    [⟨"b.py", 1, 2, "worldworld"⟩] := by decide

/-! Part: Packing lemmas -/

theorem packGo_sum_le (tc : String → Nat) (B : Nat) :
    ∀ (l : List Chunk) (cur : Nat), cur ≤ B →
      cur + ((packGo tc B cur l).map (chunkCost tc)).sum ≤ B := by
  intro l
  induction l with
  | nil => intro cur h; simpa [packGo]
  | cons c rest ih =>
    intro cur h
    by_cases h1 : cur + chunkCost tc c ≤ B
    · have := ih (cur + chunkCost tc c) h1
      simp only [packGo, if_pos h1, List.map_cons, List.sum_cons]
      omega
    · simpa [packGo, if_neg h1]

theorem packGo_isPrefix (tc : String → Nat) (B : Nat) :
    ∀ (l : List Chunk) (cur : Nat), packGo tc B cur l <+: l := by
  intro l
  induction l with
  | nil => intro cur; simp [packGo]
  | cons c rest ih =>
    intro cur
    by_cases h1 : cur + chunkCost tc c ≤ B
    · simpa [packGo, if_pos h1] using ih (cur + chunkCost tc c)
    · simp [packGo, if_neg h1]

theorem packGo_stop (tc : String → Nat) (B : Nat) :
    ∀ (l : List Chunk) (cur : Nat), (packGo tc B cur l).length < l.length →
      B < cur + ((packGo tc B cur l).map (chunkCost tc)).sum +
        chunkCost tc (l.getD (packGo tc B cur l).length default) := by
  intro l
  induction l with
  | nil => intro cur h; simp [packGo] at h
  | cons c rest ih =>
    intro cur h
    by_cases h1 : cur + chunkCost tc c ≤ B
    · simp only [packGo, if_pos h1, List.length_cons, List.map_cons, List.sum_cons,
        List.getD_cons_succ] at h ⊢
      have := ih (cur + chunkCost tc c) (by omega)
      omega
    · simp only [packGo, if_neg h1, List.length_nil, List.map_nil, List.sum_nil,
        List.getD_cons_zero] at h ⊢
      omega

/-! Part: Deduplication lemmas -/

theorem dedupGo_subset : ∀ (l : List Chunk) (seen : List String),
    ∀ c ∈ dedupGo seen l, c ∈ l := by
  intro l
  induction l with
  | nil => intro seen c hc; simp [dedupGo] at hc
  | cons x rest ih =>
    intro seen c hc
    by_cases h1 : uidOf x ∈ seen
    · exact List.mem_cons_of_mem _ (ih seen c (by simpa [dedupGo, if_pos h1] using hc))
    · rw [dedupGo, if_neg h1] at hc
      rcases List.mem_cons.mp hc with h2 | h2
      · exact h2 ▸ List.mem_cons_self _ _
      · exact List.mem_cons_of_mem _ (ih _ c h2)

theorem dedupGo_uid_nodup : ∀ (l : List Chunk) (seen : List String),
    (dedupGo seen l).Pairwise (fun a b => uidOf a ≠ uidOf b) ∧
    ∀ c ∈ dedupGo seen l, uidOf c ∉ seen := by
  intro l
  induction l with
  | nil => intro seen; simp [dedupGo]
  | cons x rest ih =>
    intro seen
    by_cases h1 : uidOf x ∈ seen
    · simpa [dedupGo, if_pos h1] using ih seen
    · rw [dedupGo, if_neg h1]
      obtain ⟨hpw, hseen⟩ := ih (uidOf x :: seen)
      refine ⟨List.pairwise_cons.mpr ⟨?_, hpw⟩, ?_⟩
      · intro b hb
        have := hseen b hb
        intro hcontra
        exact this (hcontra ▸ List.mem_cons_self _ _)
      · intro c hc
        rcases List.mem_cons.mp hc with h2 | h2
        · exact h2 ▸ h1
        · exact fun hmem => hseen c h2 (List.mem_cons_of_mem _ hmem)

/-! Part: Permutation and membership lemmas for the sorting stages -/

theorem sInsert_perm (le : α → α → Bool) (x : α) :
    ∀ l : List α, List.Perm (sInsert le x l) (x :: l) := by
  intro l
  induction l with
  | nil => simp [sInsert]
  | cons y ys ih =>
    by_cases h : le x y
    · simp [sInsert, if_pos h]
    · rw [sInsert, if_neg h]
      exact List.Perm.trans (List.Perm.cons y ih) (List.Perm.swap x y ys)

theorem stableSort_perm (le : α → α → Bool) :
    ∀ l : List α, List.Perm (stableSort le l) l := by
  intro l
  induction l with
  | nil => exact List.Perm.refl _
  | cons x xs ih =>
    exact List.Perm.trans (sInsert_perm le x _) (List.Perm.cons x ih)

theorem broadIndices_lt (emb : List (List ℤ)) (qe : List ℤ) (k : Nat) :
    ∀ i ∈ broadIndices emb qe k, i < emb.length := by
  intro i hi
  have h1 : i ∈ (stableSort (fun i j =>
      decide ((emb.map (dotScore qe)).getD i 0 ≤ (emb.map (dotScore qe)).getD j 0))
      (List.range (emb.map (dotScore qe)).length)).reverse := List.mem_of_mem_take hi
  rw [List.mem_reverse] at h1
  have h2 := (stableSort_perm _ _).mem_iff.mp h1
  rw [List.mem_range, List.length_map] at h2
  exact h2

/-! Part: Candidate membership -/

theorem candidateChunks_subset (ranker : Option (String → String → ℤ))
    (related : Option (String → List String)) (query : String) (qe : List ℤ)
    (index : RetrievalIndex) (topK : Nat)
    (h : index.chunks.length = index.embeddings.length) :
    ∀ c ∈ candidateChunks ranker related query qe index topK, c ∈ index.chunks := by
  intro c hc
  rw [candidateChunks] at hc
  by_cases hempty : index.chunks = [] ∨ embSize index.embeddings = 0
  · rw [if_pos hempty] at hc
    simp at hc
  · rw [if_neg hempty] at hc
    have hmem := dedupGo_subset _ _ c hc
    have hbroad : ∀ b ∈ (broadIndices index.embeddings qe (topK * 5)).map
        (fun i => index.chunks.getD i default), b ∈ index.chunks := by
      intro b hb
      obtain ⟨i, hi, rfl⟩ := List.mem_map.mp hb
      have hlt : i < index.chunks.length := h ▸ broadIndices_lt _ _ _ i hi
      rw [List.getD_eq_getElem _ _ hlt]
      exact List.getElem_mem hlt
    have hranked : ∀ b ∈ rankedChunks ranker query
        ((broadIndices index.embeddings qe (topK * 5)).map
          (fun i => index.chunks.getD i default)), b ∈ index.chunks := by
      intro b hb
      rcases ranker with _ | f
      · exact hbroad b hb
      · exact hbroad b ((stableSort_perm _ _).mem_iff.mp hb)
    rcases List.mem_append.mp hmem with h1 | h1
    · exact hranked c h1
    · rcases related with _ | rel
      · simp [graphChunks] at h1
      · exact List.mem_of_mem_filter h1

/-- C1: the sequence returned by `retrieve` is a greedy packing of the
deduplicated candidate sequence under the token budget: its total
estimated cost (per-chunk estimate plus the fixed overhead of 20) is at
most `maxTokens`; it is a prefix of the candidate sequence, so chunks are
only ever excluded whole, never truncated; and it stops exactly at the
first chunk whose addition would exceed the budget. -/
theorem retrieve_token_budget_greedy (tc : String → Nat)
    (ranker : Option (String → String → ℤ)) (related : Option (String → List String))
    (query : String) (qe : List ℤ) (index : RetrievalIndex) (topK maxTokens : Nat) :
    ((retrieve tc ranker related query qe index topK maxTokens).map (chunkCost tc)).sum
        ≤ maxTokens ∧
    retrieve tc ranker related query qe index topK maxTokens
        <+: candidateChunks ranker related query qe index topK ∧
    ((retrieve tc ranker related query qe index topK maxTokens).length <
        (candidateChunks ranker related query qe index topK).length →
      maxTokens <
        ((retrieve tc ranker related query qe index topK maxTokens).map (chunkCost tc)).sum +
        chunkCost tc ((candidateChunks ranker related query qe index topK).getD
          (retrieve tc ranker related query qe index topK maxTokens).length default)) := by
  refine ⟨?_, packGo_isPrefix tc maxTokens _ 0, ?_⟩
  · have := packGo_sum_le tc maxTokens (candidateChunks ranker related query qe index topK) 0
      (Nat.zero_le _)
    simpa [retrieve] using this
  · intro hlen
    have := packGo_stop tc maxTokens (candidateChunks ranker related query qe index topK) 0 hlen
    simpa [retrieve] using this

/-- C10: every chunk returned by `retrieve` is an element of the index's
chunk list, unmodified, and no two returned chunks share the same
`(path, start_line)` pair. -/
theorem retrieve_provenance (tc : String → Nat)
    (ranker : Option (String → String → ℤ)) (related : Option (String → List String))
    (query : String) (qe : List ℤ) (index : RetrievalIndex) (topK maxTokens : Nat)
    (h : index.chunks.length = index.embeddings.length) :
    (∀ c ∈ retrieve tc ranker related query qe index topK maxTokens, c ∈ index.chunks) ∧
    (retrieve tc ranker related query qe index topK maxTokens).Pairwise
      (fun a b => a.path ≠ b.path ∨ a.start_line ≠ b.start_line) := by
  have hsub : (retrieve tc ranker related query qe index topK maxTokens).Sublist
      (candidateChunks ranker related query qe index topK) :=
    (packGo_isPrefix tc maxTokens _ 0).sublist
  constructor
  · intro c hc
    exact candidateChunks_subset ranker related query qe index topK h c (hsub.mem hc)
  · have hpw : (candidateChunks ranker related query qe index topK).Pairwise
        (fun a b => uidOf a ≠ uidOf b) := by
      rw [candidateChunks]
      by_cases hempty : index.chunks = [] ∨ embSize index.embeddings = 0
      · rw [if_pos hempty]
        exact List.Pairwise.nil
      · rw [if_neg hempty]
        exact (dedupGo_uid_nodup _ _).1
    refine (hpw.sublist hsub).imp ?_
    intro a b hab
    by_contra hcontra
    push_neg at hcontra
    exact hab (by rw [uidOf, uidOf, hcontra.1, hcontra.2])

/-- Witness for `retrieve_provenance` at a concrete two-chunk index. -/
theorem retrieve_provenance_witness :
    (((⟨[⟨"a.py", 1, 2, "hello"⟩, ⟨"b.py", 3, 4, "world"⟩], [[1], [2]], none, none⟩ :
        RetrievalIndex)).chunks.length =
      ((⟨[⟨"a.py", 1, 2, "hello"⟩, ⟨"b.py", 3, 4, "world"⟩], [[1], [2]], none, none⟩ :
        RetrievalIndex)).embeddings.length) ∧
    ((∀ c ∈ retrieve countTokensFallback none none "q" [1]
        ⟨[⟨"a.py", 1, 2, "hello"⟩, ⟨"b.py", 3, 4, "world"⟩], [[1], [2]], none, none⟩ 6 100,
        c ∈ (⟨[⟨"a.py", 1, 2, "hello"⟩, ⟨"b.py", 3, 4, "world"⟩], [[1], [2]], none, none⟩ :
          RetrievalIndex).chunks) ∧
      (retrieve countTokensFallback none none "q" [1]
        ⟨[⟨"a.py", 1, 2, "hello"⟩, ⟨"b.py", 3, 4, "world"⟩], [[1], [2]], none, none⟩ 6 100).Pairwise
        (fun a b => a.path ≠ b.path ∨ a.start_line ≠ b.start_line)) :=
  ⟨by decide, retrieve_provenance countTokensFallback none none "q" [1] _ 6 100 (by decide)⟩

/-! Part: Index construction (`build_chunks`, `build_index`)

File traversal and eligibility filtering (`_iter_files`, size ceiling,
directory pruning, PDF text extraction) touch the filesystem, so
`buildChunks` takes the already-read eligible files as a list of
`(relative path, splitlines(keepends=True) lines)` pairs; zero eligible
files is the empty list.  The SentenceTransformer batch call is the
`embed` parameter. -/

/-- Default of `RAG_CHUNK_LINE_SIZE`. -/
def CHUNK_LINE_SIZE : Nat := 200

/-- Default of `RAG_CHUNK_OVERLAP`. -/
def CHUNK_OVERLAP : Nat := 40

/-- Source `retrieval.py`, `build_chunks`: chunk every eligible file, tagging
each chunk with the file's relative path. -/
def buildChunks (files : List (String × List String)) : Option (List Chunk) :=
  (files.mapM (fun f => (chunkLines CHUNK_LINE_SIZE CHUNK_OVERLAP f.2).map
    (fun l => l.map (fun c => Chunk.mk f.1 c.1 c.2.1 c.2.2)))).map List.flatten

/-- Source `retrieval.py`, `build_index`: an explicitly empty index when there
are no chunks, otherwise the chunks paired with the batch embedding of
their path-prefixed texts. -/
def buildIndex (embed : List String → List (List ℤ))
    (files : List (String × List String)) : Option RetrievalIndex :=
  (buildChunks files).map (fun chunks =>
    if chunks = [] then ⟨[], [], none, none⟩
    else ⟨chunks, embed (chunks.map (fun c => "File: " ++ c.path ++ "\nContent:\n" ++ c.text)),
      none, none⟩)

/-- C8: with zero eligible files, `build_index` returns the explicitly
empty index (no chunks, zero-row vector set) rather than failing, and
`retrieve` applied to the empty index returns the empty sequence. -/
theorem empty_corpus_ok (embed : List String → List (List ℤ)) (tc : String → Nat)
    (ranker : Option (String → String → ℤ)) (related : Option (String → List String))
    (query : String) (qe : List ℤ) (topK maxTokens : Nat) :
    buildIndex embed [] = some ⟨[], [], none, none⟩ ∧
    retrieve tc ranker related query qe ⟨[], [], none, none⟩ topK maxTokens = [] := by
  constructor
  · rfl
  · rfl

/-! Part: Stability of the broad-recall ordering (C9) -/

theorem sInsert_mem (le : α → α → Bool) (x y : α) (l : List α) (h : y ∈ l) :
    y ∈ sInsert le x l :=
  (sInsert_perm le x l).mem_iff.mpr (List.mem_cons_of_mem x h)

theorem sInsert_keeps_pair (le : α → α → Bool) (x a b : α) :
    ∀ l : List α, [a, b].Sublist l → [a, b].Sublist (sInsert le x l) := by
  intro l
  induction l with
  | nil => intro h; cases h
  | cons y ys ih =>
    intro h
    by_cases hle : le x y
    · rw [sInsert, if_pos hle]
      exact h.cons x
    · rw [sInsert, if_neg hle]
      rcases List.cons_sublist_cons'.mp h with h1 | ⟨rfl, h1⟩
      · exact (ih h1).cons y
      · exact (List.singleton_sublist.mpr
          (sInsert_mem le x b ys (List.singleton_sublist.mp h1))).cons₂ a

theorem sInsert_before_ties (le : α → α → Bool) (x y : α) (hxy : le x y = true) :
    ∀ l : List α, y ∈ l → [x, y].Sublist (sInsert le x l) := by
  intro l
  induction l with
  | nil => intro h; cases h
  | cons z zs ih =>
    intro hmem
    by_cases hle : le x z
    · rw [sInsert, if_pos hle]
      exact (List.singleton_sublist.mpr hmem).cons₂ x
    · rw [sInsert, if_neg hle]
      rcases List.mem_cons.mp hmem with rfl | h1
      · exact absurd hxy hle
      · exact (ih h1).cons z

/-- Stability of `stableSort`: if `a` occurs before `b` in the input and
`le a b` holds, then `a` still occurs before `b` in the output. -/
theorem stableSort_stable (le : α → α → Bool) (a b : α) (hab : le a b = true) :
    ∀ l : List α, [a, b].Sublist l → [a, b].Sublist (stableSort le l) := by
  intro l
  induction l with
  | nil => intro h; cases h
  | cons x xs ih =>
    intro h
    show [a, b].Sublist (sInsert le x (stableSort le xs))
    rcases List.cons_sublist_cons'.mp h with h1 | ⟨rfl, h1⟩
    · exact sInsert_keeps_pair le x a b _ (ih h1)
    · exact sInsert_before_ties le a b hab _
        ((stableSort_perm le xs).mem_iff.mpr (List.singleton_sublist.mp h1))

/-- A pair-sublist survives `take` when the list has no duplicates and the
later element survives the truncation. -/
theorem pair_sublist_take (a b : α) :
    ∀ (l : List α) (k : Nat), l.Nodup → [a, b].Sublist l → b ∈ l.take k →
      [a, b].Sublist (l.take k) := by
  intro l
  induction l with
  | nil => intro k _ _ hb; simp at hb
  | cons x xs ih =>
    intro k hnd hsub hb
    match k with
    | 0 => simp at hb
    | k + 1 =>
      rw [List.take_succ_cons] at hb ⊢
      have hxnotin : x ∉ xs := (List.nodup_cons.mp hnd).1
      rcases List.cons_sublist_cons'.mp hsub with h1 | ⟨rfl, h1⟩
      · have hbxs : b ∈ xs := h1.subset (List.mem_cons_of_mem a (List.mem_singleton_self b))
        have hbx : b ≠ x := fun hcontra => hxnotin (hcontra ▸ hbxs)
        have hb2 : b ∈ xs.take k := by
          rcases List.mem_cons.mp hb with h2 | h2
          · exact absurd h2 hbx
          · exact h2
        exact (ih k (List.nodup_cons.mp hnd).2 h1 hb2).cons x
      · have hbxs : b ∈ xs := List.singleton_sublist.mp h1
        have hbx : b ≠ a := fun hcontra => hxnotin (hcontra ▸ hbxs)
        have hb2 : b ∈ xs.take k := by
          rcases List.mem_cons.mp hb with h2 | h2
          · exact absurd h2 hbx
          · exact h2
        exact (List.singleton_sublist.mpr hb2).cons₂ a

/-- C9 (amended): in the broad-recall stage, when two indexed vectors have
equal similarity scores, the chunk with the *higher* index position
appears before the one with the lower position: `np.argsort` orders ties
by ascending original position (stable), and the subsequent `[::-1]`
reversal flips them.  `[j, i] <+ out` states that `j` occurs before `i`. -/
theorem broad_ties_higher_first (emb : List (List ℤ)) (qe : List ℤ) (k i j : Nat)
    (hij : i < j) (hj : j < emb.length)
    (heq : (emb.map (dotScore qe)).getD i 0 = (emb.map (dotScore qe)).getD j 0)
    (hmem : i ∈ broadIndices emb qe k) :
    [j, i].Sublist (broadIndices emb qe k) := by
  simp only [broadIndices] at hmem ⊢
  set scores := emb.map (dotScore qe) with hscores
  set le := fun i j : Nat => decide (scores.getD i 0 ≤ scores.getD j 0) with hle
  have hrange : [i, j].Sublist (List.range scores.length) := by
    have h1 : [i].Sublist (List.range j) :=
      List.singleton_sublist.mpr (List.mem_range.mpr hij)
    have h2 : [i, j].Sublist (List.range j ++ [j]) := by
      have := List.Sublist.append h1 (List.Sublist.refl [j])
      simpa using this
    rw [← List.range_succ] at h2
    refine h2.trans (List.range_sublist.mpr ?_)
    rw [hscores, List.length_map]
    omega
  have hleij : le i j = true := by
    rw [hle]
    exact decide_eq_true (le_of_eq heq)
  have hsorted := stableSort_stable le i j hleij _ hrange
  have hrev : [j, i].Sublist (stableSort le (List.range scores.length)).reverse := by
    have := hsorted.reverse
    simpa using this
  have hnodup : ((stableSort le (List.range scores.length)).reverse).Nodup := by
    rw [List.nodup_reverse]
    exact ((stableSort_perm le _).nodup_iff).mpr (List.nodup_range _)
  exact pair_sublist_take j i _ k hnodup hrev hmem

/-- Witness for `broad_ties_higher_first`: two identical unit vectors tie,
index `0` survives the truncation, and index `1` precedes it. -/
theorem broad_ties_higher_first_witness :
    (0 < 1 ∧ 1 < ([[1], [1]] : List (List ℤ)).length ∧
      (([[1], [1]] : List (List ℤ)).map (dotScore [1])).getD 0 0 =
        (([[1], [1]] : List (List ℤ)).map (dotScore [1])).getD 1 0 ∧
      0 ∈ broadIndices [[1], [1]] [1] 30) ∧
    [1, 0].Sublist (broadIndices [[1], [1]] [1] 30) :=
  ⟨⟨by decide, by decide, by decide, by decide⟩,
    broad_ties_higher_first [[1], [1]] [1] 30 0 1 (by decide) (by decide)
      (by decide) (by decide)⟩

/-- C9 counterexample: two chunks with identical embedding vectors have
bit-equal similarity scores, yet the broad-recall candidate order is
`[1, 0]` — the chunk with the *higher* index position first — because
`np.argsort(scores)[::-1]` reverses the stable ascending tie order.  The
claim says the lower index appears before the higher, i.e. `[0, 1]`. -/
theorem broad_ties_cex :
    (([[1], [1]] : List (List ℤ)).map (dotScore [1]) = [1, 1]) ∧
    broadIndices [[1], [1]] [1] 30 = [1, 0] := by decide

/-! Part: Dependency graph (`graph.py`, `get_repo_graph`)

The adjacency list is a Python dict keyed by file path; here an
association list read through its first matching entry (appends always go
to the first matching entry, so the two views agree).  The links are
produced by the regex import scanner of `build_knowledge_graph`; the
adjacency construction is modelled over an arbitrary node and link list,
so the symmetry theorem covers whatever links the scanner emits. -/

/-- Lookup `adj_list[k]` (with `adj_list.get(k, [])` semantics, as used by
`get_related_files`). -/
def adjGet (adj : List (String × List String)) (k : String) : List String :=
  match adj with
  | [] => []
  | e :: rest => if e.1 = k then e.2 else adjGet rest k

/-- Update step `if k not in adj_list: adj_list[k] = []` followed by
`adj_list[k].append(v)`. -/
def adjAppend (adj : List (String × List String)) (k v : String) :
    List (String × List String) :=
  match adj with
  | [] => [(k, [v])]
  | e :: rest => if e.1 = k then (e.1, e.2 ++ [v]) :: rest else e :: adjAppend rest k v

/-- Source `graph.py`, `get_repo_graph`: initialise every node id with an empty neighbour
list, then record each link `(source, target)` in both directions. -/
def buildAdj (nodes : List String) (links : List (String × String)) :
    List (String × List String) :=
  links.foldl (fun adj l => adjAppend (adjAppend adj l.1 l.2) l.2 l.1)
    (nodes.map (fun n => (n, [])))

theorem adjGet_adjAppend (k v a : String) :
    ∀ adj, adjGet (adjAppend adj k v) a =
      if a = k then adjGet adj a ++ [v] else adjGet adj a := by
  intro adj
  induction adj with
  | nil =>
    by_cases h : a = k
    · subst h
      simp [adjAppend, adjGet]
    · simp [adjAppend, adjGet, h, fun hh : k = a => h hh.symm, Ne.symm h]
  | cons e rest ih =>
    rw [adjAppend]
    by_cases h1 : e.1 = k
    · rw [if_pos h1]
      by_cases h2 : e.1 = a
      · have hak : a = k := by rw [← h2, h1]
        rw [adjGet, if_pos (show ((e.1, e.2 ++ [v]) : String × List String).1 = a from h2)]
        rw [if_pos hak, adjGet, if_pos h2]
      · have hak : ¬ a = k := fun hh => h2 (h1.trans hh.symm)
        rw [adjGet, if_neg (show ¬((e.1, e.2 ++ [v]) : String × List String).1 = a from h2)]
        rw [if_neg hak, adjGet, if_neg h2]
    · rw [if_neg h1]
      by_cases h2 : e.1 = a
      · have hak : ¬ a = k := fun hh => h1 (h2.trans hh)
        rw [adjGet, if_pos h2, if_neg hak, adjGet, if_pos h2]
      · rw [adjGet, if_neg h2, ih]
        by_cases hak : a = k
        · rw [if_pos hak, if_pos hak, adjGet, if_neg h2]
        · rw [if_neg hak, if_neg hak, adjGet, if_neg h2]

theorem mem_adjGet_adjAppend (adj : List (String × List String)) (k v a b : String) :
    b ∈ adjGet (adjAppend adj k v) a ↔ b ∈ adjGet adj a ∨ (a = k ∧ b = v) := by
  rw [adjGet_adjAppend]
  by_cases h : a = k
  · rw [if_pos h]
    simp [h]
  · rw [if_neg h]
    simp [h]

theorem adjGet_init (nodes : List String) (a : String) :
    adjGet (nodes.map (fun n => (n, ([] : List String)))) a = [] := by
  induction nodes with
  | nil => rfl
  | cons n rest ih =>
    rw [List.map_cons, adjGet]
    by_cases h : n = a
    · rw [if_pos h]
    · rw [if_neg h]
      exact ih

/-- C4: the adjacency produced by `get_repo_graph` is symmetric: each link
is recorded in both directions, so `B ∈ adjacency[A]` iff
`A ∈ adjacency[B]`, for every node list, every link list and all paths. -/
theorem graph_adjacency_symm (nodes : List String) (links : List (String × String))
    (A B : String) :
    B ∈ adjGet (buildAdj nodes links) A ↔ A ∈ adjGet (buildAdj nodes links) B := by
  rw [buildAdj]
  suffices h : ∀ (adj : List (String × List String)),
      (∀ a b, b ∈ adjGet adj a ↔ a ∈ adjGet adj b) →
      ∀ a b, b ∈ adjGet (links.foldl
        (fun adj l => adjAppend (adjAppend adj l.1 l.2) l.2 l.1) adj) a ↔
        a ∈ adjGet (links.foldl
          (fun adj l => adjAppend (adjAppend adj l.1 l.2) l.2 l.1) adj) b by
    refine h _ ?_ A B
    intro a b
    rw [adjGet_init, adjGet_init]
    simp
  clear A B
  induction links with
  | nil => intro adj hsym a b; exact hsym a b
  | cons l rest ih =>
    intro adj hsym a b
    rw [List.foldl_cons]
    refine ih (adjAppend (adjAppend adj l.1 l.2) l.2 l.1) ?_ a b
    intro x y
    rw [mem_adjGet_adjAppend, mem_adjGet_adjAppend, mem_adjGet_adjAppend,
      mem_adjGet_adjAppend, hsym x y]
    tauto

example :
    adjGet (buildAdj ["a.py", "b.py"] [("a.py", "b.py")]) "b.py" = ["a.py"] ∧
    adjGet (buildAdj ["a.py", "b.py"] [("a.py", "b.py")]) "a.py" = ["b.py"] := by decide

/-! Part: Index persistence (`save_index`, `load_index`)

The filesystem is a `Store`: one association map for the `{key}.json`
metadata files and one for the `{key}.npy` vector files, written with
overwrite semantics and read through the first (most recent) entry.
`_cache_key` hashes the payload
`f"{repo_path}:{repo_url or \'\'}:{DEFAULT_EMBED_MODEL}:{CHUNK_LINE_SIZE}:{CHUNK_OVERLAP}"`
with sha256; save and load apply the same function to the same payload,
so the digest step is omitted and the payload itself is the key.
`save_index` mutates its argument (it sets `index.collection_name` and
`index.collection_path` after the chroma upsert, when chromadb is
importable and the index is non-empty); the model passes state
explicitly, returning the written store and the possibly-updated index.
The contents upserted into the chroma collection itself live in the
external vector store and are not modelled. -/

/-- Default of `RAG_EMBED_MODEL`. -/
def DEFAULT_EMBED_MODEL : String := "all-MiniLM-L6-v2"

/-- Default of `RAG_CACHE_DIR`. -/
def DEFAULT_CACHE_DIR : String := ".rag_cache"

/-- The payload of `_cache_key(repo_path, repo_url)`. -/
def cacheKey (repoPath : String) (repoUrl : Option String) : String :=
  repoPath ++ ":" ++ repoUrl.getD "" ++ ":" ++ DEFAULT_EMBED_MODEL ++ ":" ++
    toString CHUNK_LINE_SIZE ++ ":" ++ toString CHUNK_OVERLAP

/-- Path `_cache_dir(repo_path)`. -/
def cacheDirOf (repoPath : String) : String := repoPath ++ "/" ++ DEFAULT_CACHE_DIR

/-- Path `cache_dir / f"{key}.json"`. -/
def metaPathOf (repoPath key : String) : String := cacheDirOf repoPath ++ "/" ++ key ++ ".json"

/-- Path `cache_dir / f"{key}.npy"`. -/
def embPathOf (repoPath key : String) : String := cacheDirOf repoPath ++ "/" ++ key ++ ".npy"

/-- The JSON metadata record written by `save_index`. -/
structure SavedMeta where
  chunks : List Chunk
  collection_name : String
  collection_path : String
deriving DecidableEq, Repr

/-- First-match association lookup (file read). -/
def assocGet (m : List (String × α)) (k : String) : Option α :=
  match m with
  | [] => none
  | e :: rest => if e.1 = k then some e.2 else assocGet rest k

/-- Overwriting association update (file write). -/
def assocPut (m : List (String × α)) (k : String) (v : α) : List (String × α) :=
  (k, v) :: m

/-- The durable cache: metadata files and vector files. -/
structure Store where
  meta : List (String × SavedMeta)
  emb : List (String × List (List ℤ))

/-- Source `retrieval.py`, `save_index(repo_path, index, repo_url)`.  `chroma`
models `chromadb is not None`. -/
def saveIndex (chroma : Bool) (store : Store) (repoPath : String)
    (index : RetrievalIndex) (repoUrl : Option String) : Store × RetrievalIndex :=
  let key := cacheKey repoPath repoUrl
  let collectionName := "repo_" ++ key
  let store' : Store :=
    ⟨assocPut store.meta (metaPathOf repoPath key)
        ⟨index.chunks, collectionName, cacheDirOf repoPath⟩,
      assocPut store.emb (embPathOf repoPath key) index.embeddings⟩
  let index' :=
    if chroma = true ∧ index.chunks ≠ [] then
      { index with collection_name := some collectionName,
                   collection_path := some (cacheDirOf repoPath) }
    else index
  (store', index')

/-- Source `retrieval.py`, `load_index(repo_path, repo_url)`: `none` when either
cache file is missing (the source also returns `None` on unparsable
content, which an in-model typed store cannot produce). -/
def loadIndex (store : Store) (repoPath : String) (repoUrl : Option String) :
    Option RetrievalIndex :=
  let key := cacheKey repoPath repoUrl
  match assocGet store.meta (metaPathOf repoPath key),
      assocGet store.emb (embPathOf repoPath key) with
  | some m, some e => some ⟨m.chunks, e, some m.collection_name, some m.collection_path⟩
  | _, _ => none

/-- C3: `save` followed by `load` with the same repository path, identity
and configuration returns a present index whose chunk metadata and
vectors are identical to those of the saved index. -/
theorem saveLoad_roundtrip (chroma : Bool) (store : Store) (repoPath : String)
    (index : RetrievalIndex) (repoUrl : Option String) :
    ∃ idx', loadIndex (saveIndex chroma store repoPath index repoUrl).1 repoPath repoUrl
        = some idx' ∧
      idx'.chunks = index.chunks ∧ idx'.embeddings = index.embeddings := by
  refine ⟨⟨index.chunks, index.embeddings,
    some ("repo_" ++ cacheKey repoPath repoUrl), some (cacheDirOf repoPath)⟩, ?_, rfl, rfl⟩
  simp [loadIndex, saveIndex, assocGet, assocPut]

/-- C6 counterexample: with chromadb importable and a non-empty index,
`save_index` mutates the index it is given: `collection_name` was `None`
before the call and is set afterwards. -/
theorem saveIndex_mutates_cex :
    (⟨[⟨"a.py", 1, 1, "x"⟩], [[1]], none, none⟩ : RetrievalIndex).collection_name = none ∧
    (saveIndex true ⟨[], []⟩ "r" ⟨[⟨"a.py", 1, 1, "x"⟩], [[1]], none, none⟩
      none).2.collection_name ≠ none := by decide

/-- C6 (amended): `save_index` leaves `chunks` and `embeddings` unchanged
always; when chromadb is unavailable or the index is empty it leaves the
whole index unchanged; otherwise it sets exactly the two collection
handle fields to the saved collection's name and the cache directory. -/
theorem saveIndex_frame (chroma : Bool) (store : Store) (repoPath : String)
    (index : RetrievalIndex) (repoUrl : Option String) :
    ((saveIndex chroma store repoPath index repoUrl).2.chunks = index.chunks) ∧
    ((saveIndex chroma store repoPath index repoUrl).2.embeddings = index.embeddings) ∧
    ((chroma = false ∨ index.chunks = []) →
      (saveIndex chroma store repoPath index repoUrl).2 = index) ∧
    (chroma = true → index.chunks ≠ [] →
      (saveIndex chroma store repoPath index repoUrl).2.collection_name
          = some ("repo_" ++ cacheKey repoPath repoUrl) ∧
      (saveIndex chroma store repoPath index repoUrl).2.collection_path
          = some (cacheDirOf repoPath)) := by
  by_cases h : chroma = true ∧ index.chunks ≠ []
  · refine ⟨?_, ?_, ?_, ?_⟩
    · simp [saveIndex, h]
    · simp [saveIndex, h]
    · intro hcontra
      rcases hcontra with h1 | h1
      · rw [h1] at h
        simp at h
      · exact absurd h1 h.2
    · intro _ _
      simp [saveIndex, h]
  · refine ⟨?_, ?_, ?_, ?_⟩
    · simp [saveIndex, h]
    · simp [saveIndex, h]
    · intro _
      simp [saveIndex, h]
    · intro h1 h2
      exact absurd ⟨h1, h2⟩ h

/-- Witness for `saveIndex_frame` at a concrete non-empty index with
chromadb available. -/
theorem saveIndex_frame_witness :
    ((saveIndex true ⟨[], []⟩ "r" ⟨[⟨"a.py", 1, 1, "x"⟩], [[1]], none, none⟩
        none).2.chunks = [⟨"a.py", 1, 1, "x"⟩]) ∧
    ((saveIndex true ⟨[], []⟩ "r" ⟨[⟨"a.py", 1, 1, "x"⟩], [[1]], none, none⟩
        none).2.embeddings = [[1]]) ∧
    ((saveIndex true ⟨[], []⟩ "r" ⟨[⟨"a.py", 1, 1, "x"⟩], [[1]], none, none⟩
        none).2.collection_name = some ("repo_" ++ cacheKey "r" none) ∧
      (saveIndex true ⟨[], []⟩ "r" ⟨[⟨"a.py", 1, 1, "x"⟩], [[1]], none, none⟩
        none).2.collection_path = some (cacheDirOf "r")) :=
  ⟨(saveIndex_frame true ⟨[], []⟩ "r" ⟨[⟨"a.py", 1, 1, "x"⟩], [[1]], none, none⟩ none).1,
    (saveIndex_frame true ⟨[], []⟩ "r" ⟨[⟨"a.py", 1, 1, "x"⟩], [[1]], none, none⟩ none).2.1,
    (saveIndex_frame true ⟨[], []⟩ "r" ⟨[⟨"a.py", 1, 1, "x"⟩], [[1]], none, none⟩
      none).2.2.2 rfl (by decide)⟩

/-! Part: Provenance validator (`agents.py`, `ResearcherAgent._validate_mermaid`)

String scanning is embedded over `List Char` with explicit fuel (always
called with `length + 1`, which every step strictly exceeds).  The
regexes are embedded as scanners with the same match semantics on the
ASCII inputs the repository handles (`\w` is modelled as
`[A-Za-z0-9_]`).  The claim quantifies over the known-path set, so the
validator takes `validPaths` directly (the source derives it from the
formatted context via `re.findall(r'path="([^"]+)"', context)`). -/

/-- Word characters, `\w`. -/
def isWordChar (c : Char) : Bool := c.isAlphanum || c = '_'

/-- The character class `[\w/.-]` of the label regex. -/
def isLabelChar (c : Char) : Bool := isWordChar c || c = '/' || c = '.' || c = '-'

/-- Whether a maximal `[\w/.-]` run matches the full label pattern
`[\w/.-]+\.\w+`: it must split at its last dot into a non-empty head
and a non-empty all-word-character tail. -/
def labelOk (run : List Char) : Bool :=
  let w := run.reverse.takeWhile isWordChar
  match run.reverse.drop w.length with
  | '.' :: rest' => decide (w ≠ []) && decide (rest' ≠ [])
  | _ => false

/-- Model of `re.findall(r'[\[\(]([\w/.-]+\.\w+)[\]\)]', s)`: at an opening
bracket, the group must consume the whole maximal `[\w/.-]` run (no
closing bracket is a run character, so backtracking cannot stop short),
the next character must close, and scanning resumes after the match. -/
def findLabelsAux : Nat → List Char → List String
  | 0, _ => []
  | _ + 1, [] => []
  | fuel + 1, c :: rest =>
    if c = '[' ∨ c = '(' then
      let run := rest.takeWhile isLabelChar
      match rest.drop run.length with
      | b :: rest' =>
        if (b = ']' ∨ b = ')') ∧ labelOk run = true then
          String.mk run :: findLabelsAux fuel rest'
        else
          findLabelsAux fuel rest
      | [] => findLabelsAux fuel rest
    else
      findLabelsAux fuel rest

/-- The bracketed file-path labels of a diagram block. -/
def extractLabels (s : String) : List String :=
  findLabelsAux (s.data.length + 1) s.data

example : extractLabels "graph TD\nA[services/retrieval.py] --> B(main.py)" =
    ["services/retrieval.py", "main.py"] := by decide
example : extractLabels "A[noext] B[.py] C[a.b/c]" = [] := by decide

/-- Split at the first occurrence of `sep`, Python `s.split(sep, 1)`. -/
def splitFirstAux (sep : List Char) : Nat → List Char → Option (List Char × List Char)
  | 0, _ => none
  | fuel + 1, l =>
    if sep.isPrefixOf l then some ([], l.drop sep.length)
    else
      match l with
      | [] => none
      | c :: rest => (splitFirstAux sep fuel rest).map (fun p => (c :: p.1, p.2))

/-- Model of `block.split("```", 1) if "```" in block else (block, "")`, the
per-block fence split of `_validate_mermaid`. -/
def splitFence (block : String) : String × String :=
  match splitFirstAux "```".data (block.data.length + 1) block.data with
  | some p => (String.mk p.1, String.mk p.2)
  | none => (block, "")

/-- Python `str.split(sep)` on character lists (all occurrences). -/
def splitOnAux (sep : List Char) : Nat → List Char → List (List Char)
  | 0, l => [l]
  | fuel + 1, l =>
    if sep.isPrefixOf l then [] :: splitOnAux sep fuel (l.drop sep.length)
    else
      match l with
      | [] => [[]]
      | c :: rest =>
        match splitOnAux sep fuel rest with
        | [] => [[c]]
        | h :: t => (c :: h) :: t

/-- Model of `text.split("```mermaid")`. -/
def splitOnMermaid (text : String) : List String :=
  (splitOnAux "```mermaid".data (text.data.length + 1) text.data).map String.mk

/-- Model of `sep.join(parts)`. -/
def joinSep (sep : String) : List String → String
  | [] => ""
  | [x] => x
  | x :: y :: rest => x ++ sep ++ joinSep sep (y :: rest)

/-- Tests whether `pre` is a leading substring of `s` (Python `str.startswith`). -/
def strStartsWith (s pre : String) : Bool := pre.data.isPrefixOf s.data

/-- Model of `[l.strip() for l in mermaid.strip().splitlines() if l.strip()]`
(splitting on newlines; `\r` remnants are removed by the per-line
strip). -/
def mermaidLines (mermaid : String) : List String :=
  ((splitOnAux ['\n'] ((pyStrip mermaid).data.length + 1) (pyStrip mermaid).data).map
    (fun l => pyStrip (String.mk l))).filter (fun l => decide (l ≠ ""))

/-- The basic-syntax gate of `_validate_mermaid`: the first non-blank
line must start with `graph` or `flowchart`. -/
def headerOk (mermaid : String) : Bool :=
  match mermaidLines mermaid with
  | [] => false
  | l :: _ => strStartsWith l "graph" || strStartsWith l "flowchart"

/-- The inline fabrication warning appended after a block that references
unknown files. -/
def warningFor (hall : List String) : String :=
  "\n\n⚠️ Diagram references missing files: " ++ joinSep ", " hall ++ ".\n"

/-- The body of the per-block loop of `_validate_mermaid`: re-assemble
the block (mermaid part, closing fence, remainder), inserting the
warning when the header is recognised and unknown labels occur. -/
def processBlock (validPaths : List String) (block : String) : String :=
  let m := (splitFence block).1
  let r := (splitFence block).2
  if headerOk m = false then m ++ "```" ++ r
  else
    let hall := (extractLabels m).filter (fun l => decide (l ∉ validPaths))
    if hall = [] then m ++ "```" ++ r
    else m ++ "```" ++ warningFor hall ++ r

/-- Source `agents.py`, `ResearcherAgent._validate_mermaid(text, context)`, with
the known-path set passed directly. -/
def validateMermaid (validPaths : List String) (text : String) : String :=
  match splitOnMermaid text with
  | [] => text
  | [_] => text
  | b :: bs => joinSep "```mermaid" (b :: bs.map (processBlock validPaths))

example :
    validateMermaid ["m.py"] "see\n```mermaid\ngraph TD\nA[m.py]\n```\ndone" =
      "see\n```mermaid\ngraph TD\nA[m.py]\n```\ndone" := by decide

theorem warningFor_ne (hall : List String) : warningFor hall ≠ "" := by
  intro h
  have h2 : (warningFor hall).data = "".data := congrArg String.data h
  rw [warningFor, String.data_append, String.data_append] at h2
  simp at h2

/-- C7 (amended): the per-block validation preserves the block — the
output is exactly the diagram content, the closing fence, an inserted
annotation `w`, and the untouched remainder; when the block's first line
starts a recognised diagram type (`graph`/`flowchart`), the annotation is
empty iff every extracted file-path label is a known path, and a
non-empty annotation is the fabrication warning listing only labels that
are extracted from the block and not known; blocks without a recognised
header are passed through unannotated even when they contain unknown
labels (see the counterexample). -/
theorem processBlock_amended (validPaths : List String) (block : String) :
    ∃ w, processBlock validPaths block =
        (splitFence block).1 ++ "```" ++ w ++ (splitFence block).2 ∧
      (headerOk (splitFence block).1 = false → w = "") ∧
      (headerOk (splitFence block).1 = true →
        ((∀ l ∈ extractLabels (splitFence block).1, l ∈ validPaths) ↔ w = "")) ∧
      (w ≠ "" → ∃ hall, hall ≠ [] ∧
        (∀ l ∈ hall, l ∈ extractLabels (splitFence block).1 ∧ l ∉ validPaths) ∧
        w = warningFor hall) := by
  by_cases hh : headerOk (splitFence block).1 = false
  · refine ⟨"", ?_, fun _ => rfl, ?_, fun hw => absurd rfl hw⟩
    · simp [processBlock, hh]
    · intro htrue
      rw [htrue] at hh
      exact absurd hh (by decide)
  · have ht : headerOk (splitFence block).1 = true := by
      rcases Bool.eq_false_or_eq_true (headerOk (splitFence block).1) with h | h
      · exact h
      · exact absurd h hh
    by_cases hhall :
        (extractLabels (splitFence block).1).filter (fun l => decide (l ∉ validPaths)) = []
    · refine ⟨"", ?_, fun _ => rfl, ?_, fun hw => absurd rfl hw⟩
      · simp only [processBlock]
        rw [ht, if_neg (by decide : ¬(true = false)), if_pos hhall]
        simp
      · intro _
        refine iff_of_true ?_ rfl
        intro l hl
        have := List.filter_eq_nil_iff.mp hhall l hl
        simpa using this
    · refine ⟨warningFor ((extractLabels (splitFence block).1).filter
        (fun l => decide (l ∉ validPaths))), ?_, ?_, ?_, ?_⟩
      · simp only [processBlock]
        rw [ht, if_neg (by decide : ¬(true = false)), if_neg hhall]
      · intro hfalse
        rw [hfalse] at ht
        exact absurd ht (by decide)
      · intro _
        refine iff_of_false ?_ (warningFor_ne _)
        intro hall
        obtain ⟨l, hl⟩ := List.exists_mem_of_ne_nil _ hhall
        have hmem := List.mem_filter.mp hl
        have h3 : l ∉ validPaths := by simpa using hmem.2
        exact h3 (hall l hmem.1)
      · intro _
        refine ⟨_, hhall, ?_, rfl⟩
        intro l hl
        have hmem := List.mem_filter.mp hl
        exact ⟨hmem.1, by simpa using hmem.2⟩

/-- Witness for `processBlock_amended`: a recognised `graph TD` block
with the unknown label `m.py` (known paths `["k.py"]`). -/
theorem processBlock_amended_witness :
    ∃ w, processBlock ["k.py"] "\ngraph TD\nA[m.py]\n```tail" =
        (splitFence "\ngraph TD\nA[m.py]\n```tail").1 ++ "```" ++ w ++
          (splitFence "\ngraph TD\nA[m.py]\n```tail").2 ∧
      (headerOk (splitFence "\ngraph TD\nA[m.py]\n```tail").1 = false → w = "") ∧
      (headerOk (splitFence "\ngraph TD\nA[m.py]\n```tail").1 = true →
        ((∀ l ∈ extractLabels (splitFence "\ngraph TD\nA[m.py]\n```tail").1,
          l ∈ ["k.py"]) ↔ w = "")) ∧
      (w ≠ "" → ∃ hall, hall ≠ [] ∧
        (∀ l ∈ hall, l ∈ extractLabels (splitFence "\ngraph TD\nA[m.py]\n```tail").1 ∧
          l ∉ ["k.py"]) ∧
        w = warningFor hall) :=
  processBlock_amended ["k.py"] "\ngraph TD\nA[m.py]\n```tail"

/-- C7 counterexample: a diagram block whose first line is
`sequenceDiagram` (not `graph`/`flowchart`) fails the basic-syntax gate
and is passed through with **no** fabrication warning although it
references `m.py`, which is not among the known paths — refuting the
unconditional "a block containing a bracketed file-path label not present
in knownPaths is annotated". -/
theorem validateMermaid_header_cex :
    validateMermaid ["k.py"] "```mermaid\nsequenceDiagram\nA[m.py]\n```" =
      "```mermaid\nsequenceDiagram\nA[m.py]\n```" ∧
    "m.py" ∈ extractLabels (splitFence "\nsequenceDiagram\nA[m.py]\n```").1 ∧
    "m.py" ∉ ["k.py"] := by decide
